import Mathlib

/-!
Shallow embedding of the ledger-validation core of `building-btc-with-rust`
(`src/lib/src/types.rs`, `src/lib/src/util.rs`) together with theorems that
settle the specification claims about it.

Modelling conventions:
* `Hash` (a SHA-256 digest in the source, `sha256.rs`) is modelled as `Nat`;
  the concrete digest functions (SHA-256 over a canonical CBOR encoding) are
  treated as uninterpreted parameters bundled in a `HashModel`, since no claim
  depends on the arithmetic of the digest itself.  `Hash::zero()` is `0`.
* Rust `u64` arithmetic is modelled over `Nat` with every place where
  overflow or underflow is reachable made explicit: the unchecked fee
  subtraction, the `2u64.pow` / `u64` multiplication in the subsidy
  computation, the division by the halving interval, and every value
  summation and the `block_reward + miner_fees` addition (checked via
  `addU64` / `sumU64`).  A computation that panics in a debug build is
  modelled as `Option.none`; theorems about paths where a release build
  would wrap instead carry explicit `< 2 ^ 64` bounds, so they hold under
  either build mode.
* Fallible Rust functions returning `Result<T, BtcError>` become
  `Except BtcError T`; functions that can also panic return
  `Option (Except BtcError T)` with `none` for the panic.
* `HashMap<Hash, TransactionOutput>` is modelled as an association list with
  insert-replaces-key semantics (`minsert`, `mremove`, `mget`); lookups and
  the entry multiset agree with the Rust map at every point used by the code.
* The constants `INITIAL_REWARD` and `HALVING_INTERVAL` and the modules
  `crate::error` and `crate::crypto` are referenced by `types.rs` but their
  definitions are not part of the sources at hand; following the spec (§6,
  §7) they are modelled as explicit parameters (`reward`, `halving`), as the
  error enumeration `BtcError`, and as the uninterpreted `sigVerify`.
-/

/-- Digest values (`sha256.rs` `Hash`): modelled as natural numbers. -/
abbrev Hash := Nat

/-- Modelled from the spec (§4.1): the all-zero digest used as "no parent". -/
def Hash.zero : Hash := 0

/-- Source `Hash::matches_target`: true iff the digest is at most the target. -/
def matches_target (h : Hash) (target : Nat) : Bool := h ≤ target

/-- Modelled from the spec (§7): the error kinds of the missing
`crate::error` module, whose variants are used throughout `types.rs`. -/
inductive BtcError where
  | InvalidBlock
  | InvalidMerkleRoot
  | InvalidTransaction
  | InvalidSignature
deriving DecidableEq, Repr

/-- Source `TransactionOutput` (`types.rs`): value, unique id and recipient
public key; the id and key are opaque to the core and modelled as `Nat`. -/
structure TransactionOutput where
  value : Nat
  unique_id : Nat
  pubkey : Nat
deriving DecidableEq, Repr

/-- Source `TransactionInput` (`types.rs`): the hash of the spent output and
an opaque signature (modelled as `Nat`). -/
structure TransactionInput where
  prev_transaction_output_hash : Hash
  signature : Nat
deriving DecidableEq, Repr

/-- Source `Transaction` (`types.rs`). -/
structure Transaction where
  inputs : List TransactionInput
  outputs : List TransactionOutput
deriving DecidableEq, Repr

/-- Source `MerkleRoot` (`util.rs`): a wrapped digest. -/
structure MerkleRoot where
  root : Hash
deriving DecidableEq, Repr

/-- Source `BlockHeader` (`types.rs`); the timestamp is modelled as an
integer (only its ordering is ever used). -/
structure BlockHeader where
  timestamp : Int
  nonce : Nat
  prev_block_hash : Hash
  merkle_root : MerkleRoot
  target : Nat
deriving DecidableEq, Repr

/-- Source `Block` (`types.rs`). -/
structure Block where
  header : BlockHeader
  transactions : List Transaction
deriving DecidableEq, Repr

/-- Model of `HashMap<Hash, TransactionOutput>`: an association list whose
operations keep at most one entry per key. -/
abbrev UtxoMap := List (Hash × TransactionOutput)

/-- Lookup in the UTXO map (`HashMap::get`). -/
def mget (m : UtxoMap) (k : Hash) : Option TransactionOutput :=
  (m.find? (fun p => p.1 == k)).map Prod.snd

/-- Key-removal in the UTXO map (`HashMap::remove`). -/
def mremove (m : UtxoMap) (k : Hash) : UtxoMap :=
  m.filter (fun p => p.1 != k)

/-- Insertion in the UTXO map (`HashMap::insert`): replaces any existing
entry for the key. -/
def minsert (m : UtxoMap) (k : Hash) (v : TransactionOutput) : UtxoMap :=
  (k, v) :: m.filter (fun p => p.1 != k)

/-- Key-membership in the UTXO map (`HashMap::contains_key`). -/
def mcontains (m : UtxoMap) (k : Hash) : Bool :=
  (mget m k).isSome

/-- Source `Blockchain` (`types.rs`): the block list and the UTXO index. -/
structure Blockchain where
  blocks : List Block
  utxos : UtxoMap
deriving DecidableEq, Repr

/-- Source `Blockchain::new`: the empty ledger. -/
def Blockchain.new : Blockchain :=
  { blocks := [], utxos := [] }

/-- Source `Blockchain::block_height`: the number of blocks. -/
def block_height (chain : Blockchain) : Nat := chain.blocks.length

/-- Uninterpreted digest and signature primitives: SHA-256 over the canonical
CBOR encoding (`sha256.rs` `Hash::hash` at each hashed type) and the
signature check of the missing `crate::crypto` module (spec §6).  No claim
depends on their values, so they are kept abstract. -/
structure HashModel where
  hashTx : Transaction → Hash
  hashOut : TransactionOutput → Hash
  hashHeader : BlockHeader → Hash
  hashBlock : Block → Hash
  hashPair : Hash → Hash → Hash
  sigVerify : Nat → Hash → Nat → Bool

/-- Checked `u64` addition: `none` models the overflow panic of a debug
build (a release build wraps instead; every theorem below that relies on an
addition staying defined carries an explicit no-overflow bound, so it holds
under either build mode). -/
def addU64 (a b : Nat) : Option Nat :=
  if a + b < 2 ^ 64 then some (a + b) else none

/-- Checked `u64` summation, running left to right exactly like the
`.sum()` iterator folds and the `+=` accumulations of `types.rs`
(lines 165, 173-175, 208-212, 257-259): the first overflowing partial sum
panics (`none`). -/
def sumU64 (l : List Nat) : Option Nat :=
  l.foldl (fun acc v => acc.bind (fun s => addU64 s v)) (some 0)

/-- One pass of the Merkle loop body (`util.rs` lines 34-44): combine the
current layer two hashes at a time, duplicating a trailing unpaired hash. -/
def merkleCombine (hm : HashModel) : List Hash → List Hash
  | [] => []
  | [a] => [hm.hashPair a a]
  | a :: b :: rest => hm.hashPair a b :: merkleCombine hm rest

/-- Length of a combined layer: the ceiling of half the input length. -/
theorem merkleCombine_length (hm : HashModel) (l : List Hash) :
    (merkleCombine hm l).length = (l.length + 1) / 2 := by
  induction l using merkleCombine.induct hm <;> simp_all [merkleCombine]
  omega

/-- The `while layer.len() > 1` loop of `MerkleRoot::calculate`. -/
def merkleLoop (hm : HashModel) (layer : List Hash) : List Hash :=
  if 1 < layer.length then merkleLoop hm (merkleCombine hm layer) else layer
termination_by layer.length
decreasing_by simp [merkleCombine_length]; omega

/-- Source `MerkleRoot::calculate` (`util.rs`): hash every transaction into
the leaf layer, fold the layers, and return `layer[0]`.  Indexing `layer[0]`
on the empty layer (which arises exactly for an empty transaction list)
panics in the source and is modelled as `none`. -/
def MerkleRoot.calculate (hm : HashModel) (transactions : List Transaction) :
    Option MerkleRoot :=
  match merkleLoop hm (transactions.map hm.hashTx) with
  | [] => none
  | x :: _ => some ⟨x⟩

/-- Source `Blockchain::add_block` (`types.rs` lines 30-70).  The source
checks `blocks.is_empty()`; inside that branch a non-zero parent hash is
rejected, and otherwise (still inside the empty case, because of the
misplaced `else`) `self.blocks.last().unwrap()` is evaluated on the empty
vector, which panics (`none`) before any of the linkage / PoW / Merkle /
timestamp / transaction checks of that branch can run.  When the chain is
non-empty the outer `if` is skipped entirely and the block is pushed
unconditionally.  The result pairs the post-state with the returned
`Result`. -/
def add_block (hm : HashModel) (chain : Blockchain) (block : Block) :
    Option (Blockchain × Except BtcError Unit) :=
  if chain.blocks.isEmpty then
    if block.header.prev_block_hash ≠ Hash.zero then
      some (chain, .error .InvalidBlock)
    else
      none
  else
    some ({ chain with blocks := chain.blocks ++ [block] }, .ok ())

/-- Per-transaction body of `Blockchain::rebuild_utxos` (`types.rs` lines
75-85): remove the entry of every input's referenced hash, then insert every
output under the transaction's own hash (later outputs overwrite earlier
ones). -/
def replayTransaction (hm : HashModel) (m : UtxoMap) (t : Transaction) :
    UtxoMap :=
  let m1 := t.inputs.foldl
    (fun acc i => mremove acc i.prev_transaction_output_hash) m
  t.outputs.foldl (fun acc o => minsert acc (hm.hashTx t) o) m1

/-- Source `Blockchain::rebuild_utxos` (`types.rs` lines 73-87): replays
every block in chain order over the existing `utxos` index (the index is not
cleared first). -/
def rebuild_utxos (hm : HashModel) (chain : Blockchain) : Blockchain :=
  { chain with
    utxos := chain.blocks.foldl
      (fun m b => b.transactions.foldl (replayTransaction hm) m)
      chain.utxos }

/-- Rebuild as the specification words it (spec §4.5): "resets the UTXO
index, then replays every block in chain order".  Kept separate from the
source translation `rebuild_utxos` for comparison. -/
def rebuild_utxos_spec (hm : HashModel) (chain : Blockchain) : Blockchain :=
  { chain with
    utxos := chain.blocks.foldl
      (fun m b => b.transactions.foldl (replayTransaction hm) m)
      [] }

/-- Input scan of `Block::calculate_miner_fees` (`types.rs` lines 230-248):
resolve each input against the snapshot, reject unknown or already-seen
hashes, and record the resolved outputs in the `inputs` map. -/
def feeInputsLoop (utxos : UtxoMap) :
    List TransactionInput → UtxoMap → Except BtcError UtxoMap
  | [], ins => .ok ins
  | i :: rest, ins =>
    match mget utxos i.prev_transaction_output_hash with
    | none => .error .InvalidTransaction
    | some prev =>
      if mcontains ins i.prev_transaction_output_hash then
        .error .InvalidTransaction
      else
        feeInputsLoop utxos rest
          (minsert ins i.prev_transaction_output_hash prev)

/-- Output scan of `Block::calculate_miner_fees` (`types.rs` lines 249-255):
record each output under its own content hash, rejecting duplicates. -/
def feeOutputsLoop (hm : HashModel) :
    List TransactionOutput → UtxoMap → Except BtcError UtxoMap
  | [], outs => .ok outs
  | o :: rest, outs =>
    if mcontains outs (hm.hashOut o) then
      .error .InvalidTransaction
    else
      feeOutputsLoop hm rest (minsert outs (hm.hashOut o) o)

/-- The `for transaction in self.transactions.iter().skip(1)` loop of
`Block::calculate_miner_fees`. -/
def feeTxLoop (hm : HashModel) (utxos : UtxoMap) :
    List Transaction → UtxoMap → UtxoMap →
    Except BtcError (UtxoMap × UtxoMap)
  | [], ins, outs => .ok (ins, outs)
  | t :: rest, ins, outs =>
    match feeInputsLoop utxos t.inputs ins with
    | .error e => .error e
    | .ok ins2 =>
      match feeOutputsLoop hm t.outputs outs with
      | .error e => .error e
      | .ok outs2 => feeTxLoop hm utxos rest ins2 outs2

/-- The values stored in a UTXO map (`.values().map(|output| output.value)`). -/
def mvalues (m : UtxoMap) : List Nat :=
  m.map (fun p => p.2.value)

/-- Source `Block::calculate_miner_fees` (`types.rs` lines 221-263): scan
every transaction after the coinbase, sum the recorded values with the
checked `u64` sums of lines 257-259, then return
`input_value - output_value`.  The subtraction is the unchecked `u64`
subtraction of the source: when the recorded output total exceeds the
resolved input total it underflows (a panic in debug builds), modelled as
`none`. -/
def calculate_miner_fees (hm : HashModel) (b : Block) (utxos : UtxoMap) :
    Option (Except BtcError Nat) :=
  match feeTxLoop hm utxos (b.transactions.drop 1) [] [] with
  | .error e => some (.error e)
  | .ok (ins, outs) =>
    match sumU64 (mvalues ins) with
    | none => none
    | some input_value =>
      match sumU64 (mvalues outs) with
      | none => none
      | some output_value =>
        if input_value < output_value then none
        else some (.ok (input_value - output_value))

/-- Source `Block::verify_coinbase_transaction` (`types.rs` lines 186-219).
`self.transactions[0]` panics on an empty transaction list (`none`).  The
block reward is `INITIAL_REWARD * 10u64.pow(8) /
2u64.pow((predicted_block_height / HALVING_INTERVAL) as u32)`: the `u64`
multiplication panics on overflow, the division panics when the halving
interval is zero, the `as u32` cast wraps modulo `2 ^ 32`, and `2u64.pow`
panics when the (wrapped) exponent is at least 64.  The coinbase output
total of lines 208-212 is a checked `u64` sum, and the
`block_reward + miner_fees` comparison of line 215 is a checked `u64`
addition; each panic is `none`. -/
def verify_coinbase_transaction (hm : HashModel) (reward halving : Nat)
    (b : Block) (predicted_block_height : Nat) (utxos : UtxoMap) :
    Option (Except BtcError Unit) :=
  match b.transactions.head? with
  | none => none
  | some cb =>
    if cb.inputs.length ≠ 0 then some (.error .InvalidTransaction)
    else if cb.outputs.length = 0 then some (.error .InvalidTransaction)
    else
      match calculate_miner_fees hm b utxos with
      | none => none
      | some (.error e) => some (.error e)
      | some (.ok miner_fees) =>
        if 2 ^ 64 ≤ reward * 10 ^ 8 then none
        else if halving = 0 then none
        else
          let expo := (predicted_block_height / halving) % 2 ^ 32
          if 64 ≤ expo then none
          else
            let block_reward := reward * 10 ^ 8 / 2 ^ expo
            match sumU64 (cb.outputs.map (fun o => o.value)) with
            | none => none
            | some total_coinbase_outputs =>
              match addU64 block_reward miner_fees with
              | none => none
              | some expected =>
                if total_coinbase_outputs ≠ expected then
                  some (.error .InvalidTransaction)
                else some (.ok ())

/-- Per-input body of the main loop of `Block::verify_transactions`
(`types.rs` lines 140-171): resolve the input, reject a hash already spent
in this block, check the signature against the resolved output's key, and
accumulate the input value with the checked `u64` addition of the
`input_value += prev_output.value` at line 165 (`none` is its overflow
panic). -/
def vtInputsLoop (hm : HashModel) (utxos : UtxoMap) :
    List TransactionInput → UtxoMap → Nat →
    Option (Except BtcError (UtxoMap × Nat))
  | [], ins, input_value => some (.ok (ins, input_value))
  | i :: rest, ins, input_value =>
    match mget utxos i.prev_transaction_output_hash with
    | none => some (.error .InvalidTransaction)
    | some prev =>
      if mcontains ins i.prev_transaction_output_hash then
        some (.error .InvalidTransaction)
      else if ¬ hm.sigVerify i.signature i.prev_transaction_output_hash
          prev.pubkey then
        some (.error .InvalidSignature)
      else
        match addU64 input_value prev.value with
        | none => none
        | some input_value2 =>
          vtInputsLoop hm utxos rest
            (minsert ins i.prev_transaction_output_hash prev)
            input_value2

/-- The `for transaction in &self.transactions` loop of
`Block::verify_transactions` (`types.rs` lines 137-183): per transaction the
value totals start at zero, the output total is the checked `u64` sum of
the `output_value += output.value` accumulation at lines 173-175, and a
transaction whose output total exceeds its input total is rejected. -/
def vtTxLoop (hm : HashModel) (utxos : UtxoMap) :
    List Transaction → UtxoMap → Option (Except BtcError Unit)
  | [], _ => some (.ok ())
  | t :: rest, ins =>
    match vtInputsLoop hm utxos t.inputs ins 0 with
    | none => none
    | some (.error e) => some (.error e)
    | some (.ok (ins2, input_value)) =>
      match sumU64 (t.outputs.map (fun o => o.value)) with
      | none => none
      | some output_value =>
        if input_value < output_value then some (.error .InvalidTransaction)
        else vtTxLoop hm utxos rest ins2

/-- Source `Block::verify_transactions` (`types.rs` lines 124-185): reject
an empty block, verify the coinbase, then run the main per-transaction loop
over all transactions (coinbase included) with a shared spent-input map. -/
def verify_transactions (hm : HashModel) (reward halving : Nat) (b : Block)
    (predicted_block_height : Nat) (utxos : UtxoMap) :
    Option (Except BtcError Unit) :=
  if b.transactions.isEmpty then some (.error .InvalidBlock)
  else
    match verify_coinbase_transaction hm reward halving b
        predicted_block_height utxos with
    | none => none
    | some (.error e) => some (.error e)
    | some (.ok _) =>
      match vtTxLoop hm utxos b.transactions [] with
      | none => none
      | some (.error e) => some (.error e)
      | some (.ok _) => some (.ok ())

/-- Concrete hash model with constant digests and always-true signatures,
used for concrete evaluations. -/
def hmW : HashModel :=
  { hashTx := fun _ => 0
    hashOut := fun _ => 0
    hashHeader := fun _ => 0
    hashBlock := fun _ => 0
    hashPair := fun _ _ => 0
    sigVerify := fun _ _ _ => true }

/-- Concrete hash model whose transaction digest is the number of inputs,
used where two distinct transactions need distinct digests. -/
def hmK : HashModel :=
  { hashTx := fun t => t.inputs.length
    hashOut := fun o => o.unique_id
    hashHeader := fun _ => 0
    hashBlock := fun _ => 0
    hashPair := fun _ _ => 0
    sigVerify := fun _ _ _ => true }

/-- Concrete header used by the evaluation fixtures. -/
def hdr0 : BlockHeader :=
  { timestamp := 0, nonce := 0, prev_block_hash := 0
    merkle_root := ⟨0⟩, target := 0 }

/-- Concrete genesis-style block: zero parent hash, no transactions. -/
def b0W : Block := { header := hdr0, transactions := [] }

/-- Concrete candidate block whose parent hash (1) differs from the digest
of every block under `hmW` (0). -/
def b1W : Block :=
  { header := { hdr0 with prev_block_hash := 1 }, transactions := [] }

/-- Concrete one-block ledger. -/
def s1W : Blockchain := { blocks := [b0W], utxos := [] }

/-- Claim C1: the claim says that on a non-empty ledger a block whose
`prev_block_hash` differs from the last block's digest is rejected with
`InvalidBlock` and the chain is unchanged.  The source skips every check
when the chain is non-empty (the validation sits inside the
`blocks.is_empty()` branch), so the mismatching block is appended and the
call succeeds: evaluating the translated `add_block` on a one-block ledger
and a block with a wrong parent hash yields `Ok` and a two-block chain. -/
theorem add_block_nonempty_appends_without_validation :
    add_block hmW s1W b1W
      = some ({ blocks := [b0W, b1W], utxos := [] }, Except.ok ())
      ∧ b1W.header.prev_block_hash ≠ hmW.hashBlock b0W := by
  refine ⟨rfl, by decide⟩

/-- Claim C2: the claim says an empty ledger accepts a block with an
all-zero `prev_block_hash` as block 0.  In the source that branch evaluates
`self.blocks.last().unwrap()` while `blocks` is still empty, so the call
panics (modelled as `none`) instead of appending the block. -/
theorem add_block_empty_zero_prev_panics :
    add_block hmW Blockchain.new b0W = none := rfl

/-- Concrete resolved output of value 5 sitting in the UTXO snapshot. -/
def oIn5 : TransactionOutput := { value := 5, unique_id := 0, pubkey := 1 }

/-- Concrete non-coinbase transaction spending 5 into an output of 10. -/
def txSpend : Transaction :=
  { inputs := [{ prev_transaction_output_hash := 5, signature := 0 }]
    outputs := [{ value := 10, unique_id := 4, pubkey := 1 }] }

/-- Concrete coinbase placeholder (ignored by the fee calculation). -/
def cbW : Transaction :=
  { inputs := [], outputs := [{ value := 1, unique_id := 9, pubkey := 1 }] }

/-- Concrete block whose sole non-coinbase transaction records more output
value (10) than its resolved input value (5). -/
def blkC4 : Block := { header := hdr0, transactions := [cbW, txSpend] }

/-- Concrete UTXO snapshot resolving `txSpend`'s input to value 5. -/
def utxC4 : UtxoMap := [(5, oIn5)]

/-- Claim C4: the claim says `calculate_miner_fees` returns
`InvalidTransaction` when the recorded outputs exceed the resolved inputs.
The source performs the unchecked `u64` subtraction
`input_value - output_value`, which underflows on this block (inputs 5,
outputs 10): in a debug build the process panics (modelled as `none`) and in
a release build the value wraps; no `InvalidTransaction` is produced. -/
theorem calculate_miner_fees_underflow_panics :
    calculate_miner_fees hmW blkC4 utxC4 = none := rfl

/-- Claim C5: the claim says `MerkleRoot::calculate` fails explicitly on an
empty transaction list.  The source returns `MerkleRoot(layer[0])` where
`layer` is empty for an empty transaction list, so it panics on the
out-of-bounds index (modelled as `none`) and its signature offers the caller
no error value at all. -/
theorem merkle_calculate_empty_panics (hm : HashModel) :
    MerkleRoot.calculate hm [] = none := by
  simp [MerkleRoot.calculate, merkleLoop]

/-- Concrete stray UTXO entry used to exhibit the missing reset. -/
def outW : TransactionOutput := { value := 7, unique_id := 0, pubkey := 0 }

/-- Concrete ledger with no blocks but a non-empty UTXO index. -/
def sC3 : Blockchain := { blocks := [], utxos := [(3, outW)] }

/-- Claim C3 counterexample: the claim says `rebuild_utxos` first resets the
UTXO index to empty.  On a ledger with no blocks and a stray index entry the
source leaves the entry in place, while the reset-then-replay reading of the
spec would erase it. -/
theorem rebuild_utxos_does_not_reset :
    mget (rebuild_utxos hmW sC3).utxos 3 = some outW
      ∧ mget (rebuild_utxos_spec hmW sC3).utxos 3 = none := by
  exact ⟨rfl, rfl⟩

/-- Concrete block with an empty transaction list. -/
def blkEmptyTx : Block := { header := hdr0, transactions := [] }

/-- Claim C6 counterexample: the claim says every configuration other than a
well-formed exactly-paid coinbase yields `InvalidTransaction`.  On a block
with no transactions the source indexes `self.transactions[0]` and panics
(modelled as `none`), returning neither success nor `InvalidTransaction`. -/
theorem verify_coinbase_empty_block_panics :
    verify_coinbase_transaction hmW 50 1 blkEmptyTx 0 [] = none := rfl

/-- Concrete minimal coinbase with one output. -/
def cbOne : Transaction :=
  { inputs := [], outputs := [{ value := 1, unique_id := 0, pubkey := 0 }] }

/-- Concrete non-coinbase transaction whose input resolves to nothing. -/
def txUnresolved : Transaction :=
  { inputs := [{ prev_transaction_output_hash := 9, signature := 0 }]
    outputs := [] }

/-- Concrete block whose coinbase passes the zero-input and
nonempty-output checks but whose fee calculation fails. -/
def blkC10 : Block := { header := hdr0, transactions := [cbOne, txUnresolved] }

/-- Claim C10 counterexample: the claim says `verify_coinbase_transaction`
panics whenever the coinbase passes the zero-input and nonempty-output
checks and the predicted height is at least `64 * HALVING_INTERVAL`.  With
`HALVING_INTERVAL = 1` and height 64, this block's coinbase passes both
checks, yet the miner-fee calculation fails first (unresolvable input) and
the function returns `InvalidTransaction` without reaching the overflowing
`2u64.pow`. -/
theorem verify_coinbase_high_height_no_panic :
    verify_coinbase_transaction hmW 50 1 blkC10 64 []
      = some (Except.error BtcError.InvalidTransaction)
      ∧ blkC10.transactions.head? = some cbOne
      ∧ cbOne.inputs.length = 0 ∧ cbOne.outputs.length ≠ 0 := by
  exact ⟨rfl, rfl, rfl, by decide⟩

/-- Concrete two-output transaction (digest 0 under `hmK`). -/
def txTwoOut : Transaction :=
  { inputs := []
    outputs := [{ value := 10, unique_id := 1, pubkey := 0 },
                { value := 20, unique_id := 2, pubkey := 0 }] }

/-- Concrete follow-up transaction spending `txTwoOut`'s index entry
(digest 1 under `hmK`, referencing digest 0). -/
def txSpendTwoOut : Transaction :=
  { inputs := [{ prev_transaction_output_hash := 0, signature := 0 }]
    outputs := [{ value := 30, unique_id := 3, pubkey := 0 }] }

/-- Concrete one-block chain holding the two transactions above. -/
def sC8 : Blockchain :=
  { blocks := [{ header := hdr0, transactions := [txTwoOut, txSpendTwoOut] }]
    utxos := [] }

/-- Claim C8 counterexample: the claim says that after `rebuild_utxos` on a
chain containing a multi-output transaction the index holds exactly one
entry under that transaction's digest.  Here a later transaction in the same
replay spends that digest, so after the rebuild the index holds no entry for
it at all. -/
theorem rebuild_utxos_multi_output_entry_spent :
    txTwoOut.outputs.length = 2
      ∧ mget (rebuild_utxos hmK sC8).utxos (hmK.hashTx txTwoOut) = none := by
  exact ⟨rfl, rfl⟩

/-- Lookup distributes over a cons cell of the map. -/
theorem mget_cons (p : Hash × TransactionOutput) (rest : UtxoMap) (k : Hash) :
    mget (p :: rest) k = if p.1 = k then some p.2 else mget rest k := by
  by_cases h : p.1 = k
  · have hb : (p.1 == k) = true := beq_iff_eq.mpr h
    simp [mget, List.find?, hb, h]
  · have hb : (p.1 == k) = false := by simp [h]
    simp [mget, List.find?, hb, h]

/-- Removal of a cons cell keeps or drops the head by key. -/
theorem mremove_cons (p : Hash × TransactionOutput) (rest : UtxoMap)
    (k : Hash) :
    mremove (p :: rest) k
      = if p.1 = k then mremove rest k else p :: mremove rest k := by
  by_cases h : p.1 = k <;> simp [mremove, List.filter_cons, h]

/-- Lookup after removal: the removed key reads `none`, others unchanged. -/
theorem mget_mremove (m : UtxoMap) (q k : Hash) :
    mget (mremove m q) k = if q = k then none else mget m k := by
  induction m with
  | nil => simp [mget, mremove]
  | cons p rest ih =>
    rw [mremove_cons]
    by_cases hpq : p.1 = q
    · rw [if_pos hpq, ih, mget_cons]
      by_cases hqk : q = k
      · simp [hqk]
      · have hpk : ¬ p.1 = k := by rw [hpq]; exact hqk
        simp [hqk, hpk]
    · rw [if_neg hpq, mget_cons, mget_cons]
      by_cases hpk : p.1 = k
      · have hqk : ¬ q = k := fun h => hpq (by rw [hpk, h])
        simp [hpk, hqk]
      · simp [hpk, ih]

/-- Lookup after insertion: the inserted key reads the new value, others
unchanged. -/
theorem mget_minsert (m : UtxoMap) (q : Hash) (v : TransactionOutput)
    (k : Hash) :
    mget (minsert m q v) k = if q = k then some v else mget m k := by
  have : minsert m q v = (q, v) :: mremove m q := rfl
  rw [this, mget_cons]
  by_cases h : q = k <;> simp [h, mget_mremove]

/-- Membership after insertion. -/
theorem mcontains_minsert (m : UtxoMap) (q : Hash) (v : TransactionOutput)
    (k : Hash) :
    mcontains (minsert m q v) k = (if q = k then true else mcontains m k) := by
  by_cases h : q = k <;> simp [mcontains, mget_minsert, h]

/-- Primitive index mutations performed by the UTXO replay: a removal or an
insertion at a key. -/
inductive UOp where
  | rem (k : Hash)
  | ins (k : Hash) (v : TransactionOutput)
deriving DecidableEq, Repr

/-- The key an operation touches. -/
def UOp.key : UOp → Hash
  | .rem k => k
  | .ins k _ => k

/-- Apply one primitive mutation to the index. -/
def applyUOp (m : UtxoMap) : UOp → UtxoMap
  | .rem k => mremove m k
  | .ins k v => minsert m k v

/-- Apply a sequence of primitive mutations from left to right. -/
def applyUOps (m : UtxoMap) (ops : List UOp) : UtxoMap :=
  ops.foldl applyUOp m

/-- Effect of one primitive mutation on the value stored at a fixed key. -/
def stepK (k : Hash) (o : Option TransactionOutput) : UOp → Option TransactionOutput
  | .rem q => if q = k then none else o
  | .ins q v => if q = k then some v else o

/-- Applying mutations to an appended list composes. -/
theorem applyUOps_append (m : UtxoMap) (l1 l2 : List UOp) :
    applyUOps m (l1 ++ l2) = applyUOps (applyUOps m l1) l2 := by
  simp [applyUOps, List.foldl_append]

/-- One mutation at the index level agrees with its per-key effect. -/
theorem mget_applyUOp (m : UtxoMap) (op : UOp) (k : Hash) :
    mget (applyUOp m op) k = stepK k (mget m k) op := by
  cases op <;> simp [applyUOp, stepK, mget_mremove, mget_minsert]

/-- A mutation sequence at the index level agrees with the fold of its
per-key effects. -/
theorem mget_applyUOps (m : UtxoMap) (ops : List UOp) (k : Hash) :
    mget (applyUOps m ops) k = ops.foldl (stepK k) (mget m k) := by
  induction ops generalizing m with
  | nil => simp [applyUOps]
  | cons op rest ih =>
    simp only [applyUOps, List.foldl_cons]
    rw [show List.foldl applyUOp (applyUOp m op) rest
        = applyUOps (applyUOp m op) rest from rfl, ih, mget_applyUOp]

/-- A mutation sequence that never touches a key leaves its value alone. -/
theorem foldl_stepK_id (k : Hash) (ops : List UOp)
    (h : ∀ op ∈ ops, op.key ≠ k) (o : Option TransactionOutput) :
    ops.foldl (stepK k) o = o := by
  induction ops generalizing o with
  | nil => rfl
  | cons op rest ih =>
    have hop : op.key ≠ k := h op (by simp)
    have hstep : stepK k o op = o := by
      cases op <;> simp_all [stepK, UOp.key]
    rw [List.foldl_cons, hstep]
    exact ih (fun p hp => h p (by simp [hp])) o

/-- A mutation sequence that touches a key determines its final value
independently of the starting value (the last write wins). -/
theorem foldl_stepK_const (k : Hash) (ops : List UOp)
    (h : ∃ op ∈ ops, op.key = k) (o o' : Option TransactionOutput) :
    ops.foldl (stepK k) o = ops.foldl (stepK k) o' := by
  induction ops generalizing o o' with
  | nil => simp at h
  | cons op rest ih =>
    by_cases hk : op.key = k
    · have hstep : stepK k o op = stepK k o' op := by
        cases op <;> simp_all [stepK, UOp.key]
      rw [List.foldl_cons, List.foldl_cons, hstep]
    · have hrest : ∃ p ∈ rest, p.key = k := by
        rcases h with ⟨p, hp, hpk⟩
        rcases List.mem_cons.mp hp with rfl | hmem
        · exact absurd hpk hk
        · exact ⟨p, hmem, hpk⟩
      rw [List.foldl_cons, List.foldl_cons]
      exact ih hrest _ _

/-- Replaying the same mutation sequence twice gives the same per-key value
as replaying it once. -/
theorem foldl_stepK_idem (k : Hash) (ops : List UOp)
    (o : Option TransactionOutput) :
    ops.foldl (stepK k) (ops.foldl (stepK k) o) = ops.foldl (stepK k) o := by
  by_cases h : ∃ op ∈ ops, op.key = k
  · exact foldl_stepK_const k ops h _ o
  · push_neg at h
    exact foldl_stepK_id k ops h _

/-- The primitive mutations performed for one transaction during the replay:
all input-key removals, then one insertion per output under the
transaction's digest. -/
def txUOps (hm : HashModel) (t : Transaction) : List UOp :=
  t.inputs.map (fun i => UOp.rem i.prev_transaction_output_hash)
    ++ t.outputs.map (fun o => UOp.ins (hm.hashTx t) o)

/-- The primitive mutations performed for one block during the replay. -/
def blockUOps (hm : HashModel) (b : Block) : List UOp :=
  (b.transactions.map (txUOps hm)).flatten

/-- The primitive mutations performed for a whole chain during the replay. -/
def chainUOps (hm : HashModel) (blocks : List Block) : List UOp :=
  (blocks.map (blockUOps hm)).flatten

/-- The chain mutation list decomposes block by block. -/
theorem chainUOps_cons (hm : HashModel) (b : Block) (rest : List Block) :
    chainUOps hm (b :: rest) = blockUOps hm b ++ chainUOps hm rest := rfl

/-- The per-transaction replay step equals applying its mutation list. -/
theorem replayTransaction_eq_ops (hm : HashModel) (m : UtxoMap)
    (t : Transaction) :
    replayTransaction hm m t = applyUOps m (txUOps hm t) := by
  rw [txUOps, applyUOps_append]
  simp [replayTransaction, applyUOps, List.foldl_map, applyUOp]

/-- Folding the per-transaction replay step over a transaction list equals
applying the concatenated mutation lists. -/
theorem foldl_replayTransaction (hm : HashModel) (ts : List Transaction)
    (m : UtxoMap) :
    ts.foldl (replayTransaction hm) m
      = applyUOps m ((ts.map (txUOps hm)).flatten) := by
  induction ts generalizing m with
  | nil => simp [applyUOps]
  | cons t rest ih =>
    rw [List.foldl_cons, ih, List.map_cons, List.flatten_cons,
      applyUOps_append, replayTransaction_eq_ops]

/-- The UTXO index after `rebuild_utxos` is the starting index with the
chain's full mutation list applied. -/
theorem rebuild_utxos_eq_ops (hm : HashModel) (s : Blockchain) :
    (rebuild_utxos hm s).utxos = applyUOps s.utxos (chainUOps hm s.blocks) := by
  show s.blocks.foldl (fun m b => b.transactions.foldl (replayTransaction hm) m)
      s.utxos = applyUOps s.utxos (chainUOps hm s.blocks)
  generalize s.utxos = m
  induction s.blocks generalizing m with
  | nil => simp [chainUOps, applyUOps]
  | cons b rest ih =>
    rw [List.foldl_cons, ih, chainUOps_cons, applyUOps_append]
    congr 1
    rw [foldl_replayTransaction]
    rfl

/-- Claim C3 (amended): `rebuild_utxos` does not reset the index (see
`rebuild_utxos_does_not_reset`); it replays every block in chain order over
the existing index, and doing so is idempotent: invoking it any number of
times yields the same resulting index, key by key. -/
theorem rebuild_utxos_idempotent (hm : HashModel) (s : Blockchain)
    (k : Hash) :
    mget (rebuild_utxos hm (rebuild_utxos hm s)).utxos k
      = mget (rebuild_utxos hm s).utxos k := by
  have hb : (rebuild_utxos hm s).blocks = s.blocks := rfl
  rw [rebuild_utxos_eq_ops hm (rebuild_utxos hm s), hb,
    rebuild_utxos_eq_ops hm s, mget_applyUOps, mget_applyUOps,
    foldl_stepK_idem]

/-- Folding the per-key effect of a nonempty run of insertions at the same
key yields the last inserted value. -/
theorem foldl_stepK_inserts (k : Hash) (os : List TransactionOutput)
    (o : Option TransactionOutput) (h : os ≠ []) :
    (os.map (fun v => UOp.ins k v)).foldl (stepK k) o = os.getLast? := by
  induction os generalizing o with
  | nil => exact absurd rfl h
  | cons v rest ih =>
    cases rest with
    | nil => simp [stepK]
    | cons v2 rest2 =>
      rw [List.map_cons, List.foldl_cons, List.getLast?_cons_cons]
      exact ih _ (by simp)

/-- Claim C8 (amended): after `rebuild_utxos`, for the last transaction of
the last block (so that no later replay step can remove or overwrite its
index slot) with more than one output, the index holds under that
transaction's digest exactly the transaction's last output; the earlier
outputs are not retrievable. -/
theorem rebuild_utxos_multi_output_last_wins (hm : HashModel)
    (s : Blockchain) (bs : List Block) (B : Block) (ts : List Transaction)
    (t : Transaction) (hblocks : s.blocks = bs ++ [B])
    (hts : B.transactions = ts ++ [t]) (hlen : 1 < t.outputs.length) :
    mget (rebuild_utxos hm s).utxos (hm.hashTx t) = t.outputs.getLast? := by
  have hos : t.outputs ≠ [] := by
    intro hnil
    rw [hnil] at hlen
    simp at hlen
  rw [rebuild_utxos_eq_ops, hblocks, mget_applyUOps]
  have hsplit : chainUOps hm (bs ++ [B])
      = (chainUOps hm bs ++ (ts.map (txUOps hm)).flatten)
        ++ txUOps hm t := by
    simp [chainUOps, blockUOps, hts, List.append_assoc]
  rw [hsplit, List.foldl_append, txUOps, List.foldl_append,
    foldl_stepK_inserts _ _ _ hos]

/-- Concrete one-block chain whose only transaction has two outputs. -/
def sC8w : Blockchain :=
  { blocks := [{ header := hdr0, transactions := [txTwoOut] }], utxos := [] }

/-- Witness for `rebuild_utxos_multi_output_last_wins` at a concrete chain:
the two-output transaction's slot holds its last output after the rebuild. -/
theorem rebuild_utxos_multi_output_last_wins_witness :
    mget (rebuild_utxos hmK sC8w).utxos (hmK.hashTx txTwoOut)
      = txTwoOut.outputs.getLast? :=
  rebuild_utxos_multi_output_last_wins hmK sC8w []
    { header := hdr0, transactions := [txTwoOut] } [] txTwoOut rfl rfl
    (by decide)

/-- The referenced-output hashes of a list of inputs. -/
def inputKeys (l : List TransactionInput) : List Hash :=
  l.map (fun i => i.prev_transaction_output_hash)

/-- The referenced-output hashes of all inputs of a transaction list, in
scan order. -/
def txsInputKeys (ts : List Transaction) : List Hash :=
  (ts.map (fun t => inputKeys t.inputs)).flatten

/-- The referenced-output hashes of all inputs appearing anywhere in a
block, in scan order. -/
def blockInputKeys (b : Block) : List Hash :=
  txsInputKeys b.transactions

/-- Every error produced by the fee input scan is `InvalidTransaction`. -/
theorem feeInputsLoop_error (utxos : UtxoMap) (l : List TransactionInput)
    (ins : UtxoMap) (e : BtcError)
    (h : feeInputsLoop utxos l ins = .error e) :
    e = .InvalidTransaction := by
  induction l generalizing ins with
  | nil => simp [feeInputsLoop] at h
  | cons i rest ih =>
    simp only [feeInputsLoop] at h
    split at h
    · injection h with h1
      exact h1.symm
    · split at h
      · injection h with h1
        exact h1.symm
      · exact ih _ h

/-- Every error produced by the fee output scan is `InvalidTransaction`. -/
theorem feeOutputsLoop_error (hm : HashModel) (l : List TransactionOutput)
    (outs : UtxoMap) (e : BtcError)
    (h : feeOutputsLoop hm l outs = .error e) :
    e = .InvalidTransaction := by
  induction l generalizing outs with
  | nil => simp [feeOutputsLoop] at h
  | cons o rest ih =>
    simp only [feeOutputsLoop] at h
    by_cases hc : mcontains outs (hm.hashOut o) = true
    · rw [if_pos hc] at h
      injection h with h1
      exact h1.symm
    · rw [if_neg hc] at h
      exact ih _ h

/-- Every error produced by the fee transaction scan is
`InvalidTransaction`. -/
theorem feeTxLoop_error (hm : HashModel) (utxos : UtxoMap)
    (ts : List Transaction) (ins outs : UtxoMap) (e : BtcError)
    (h : feeTxLoop hm utxos ts ins outs = .error e) :
    e = .InvalidTransaction := by
  induction ts generalizing ins outs with
  | nil => simp [feeTxLoop] at h
  | cons t rest ih =>
    simp only [feeTxLoop] at h
    cases hfi : feeInputsLoop utxos t.inputs ins <;> rw [hfi] at h
    · injection h with h1
      exact h1 ▸ feeInputsLoop_error utxos t.inputs ins _ hfi
    · cases hfo : feeOutputsLoop hm t.outputs outs <;> rw [hfo] at h
      · injection h with h1
        exact h1 ▸ feeOutputsLoop_error hm t.outputs outs _ hfo
      · exact ih _ _ h

/-- A successful fee input scan implies the scanned hashes were pairwise
distinct and fresh, and characterizes the keys of the resulting map. -/
theorem feeInputsLoop_ok (utxos : UtxoMap) (l : List TransactionInput)
    (ins ins2 : UtxoMap) (h : feeInputsLoop utxos l ins = .ok ins2) :
    (inputKeys l).Nodup
      ∧ (∀ k ∈ inputKeys l, mcontains ins k = false)
      ∧ (∀ k, mcontains ins2 k = true
          ↔ (mcontains ins k = true ∨ k ∈ inputKeys l)) := by
  induction l generalizing ins with
  | nil =>
    simp only [feeInputsLoop] at h
    injection h with h1
    subst h1
    simp [inputKeys]
  | cons i rest ih =>
    simp only [feeInputsLoop] at h
    split at h
    · simp at h
    rename_i prev hg
    split at h
    · simp at h
    rename_i hc
    · have hc' : mcontains ins i.prev_transaction_output_hash = false := by
        simp at hc
        exact hc
      obtain ⟨hnd, hfresh, hchar⟩ :=
        ih (minsert ins i.prev_transaction_output_hash prev) h
      have hmem : i.prev_transaction_output_hash ∉ inputKeys rest := by
        intro hm2
        have := hfresh _ hm2
        rw [mcontains_minsert] at this
        simp at this
      refine ⟨?_, ?_, ?_⟩
      · exact List.nodup_cons.mpr ⟨hmem, hnd⟩
      · intro k hk
        rcases List.mem_cons.mp hk with rfl | hk2
        · exact hc'
        · have := hfresh _ hk2
          rw [mcontains_minsert] at this
          by_cases hik : i.prev_transaction_output_hash = k
          · rw [if_pos hik] at this
            exact absurd this (by simp)
          · rw [if_neg hik] at this
            exact this
      · intro k
        rw [hchar k, mcontains_minsert]
        by_cases hik : i.prev_transaction_output_hash = k
        · subst hik
          simp [inputKeys]
        · rw [if_neg hik]
          constructor
          · rintro (hk | hk)
            · exact Or.inl hk
            · exact Or.inr (List.mem_cons_of_mem _ hk)
          · rintro (hk | hk)
            · exact Or.inl hk
            · rcases List.mem_cons.mp hk with rfl | hk2
              · exact absurd rfl hik
              · exact Or.inr hk2

/-- A successful fee transaction scan implies the input hashes of all
scanned transactions were pairwise distinct and fresh, and characterizes
the keys of the resulting input map. -/
theorem feeTxLoop_ok (hm : HashModel) (utxos : UtxoMap)
    (ts : List Transaction) (ins outs ins2 outs2 : UtxoMap)
    (h : feeTxLoop hm utxos ts ins outs = .ok (ins2, outs2)) :
    (txsInputKeys ts).Nodup
      ∧ (∀ k ∈ txsInputKeys ts, mcontains ins k = false)
      ∧ (∀ k, mcontains ins2 k = true
          ↔ (mcontains ins k = true ∨ k ∈ txsInputKeys ts)) := by
  induction ts generalizing ins outs with
  | nil =>
    simp only [feeTxLoop] at h
    injection h with h1
    obtain ⟨rfl, rfl⟩ := Prod.mk.injEq .. ▸ h1
    simp [txsInputKeys]
  | cons t rest ih =>
    simp only [feeTxLoop] at h
    cases hfi : feeInputsLoop utxos t.inputs ins <;> rw [hfi] at h
    · simp at h
    case ok ins1 =>
    cases hfo : feeOutputsLoop hm t.outputs outs <;> rw [hfo] at h
    · simp at h
    case ok outs1 =>
    obtain ⟨hnd1, hfresh1, hchar1⟩ := feeInputsLoop_ok utxos t.inputs ins ins1 hfi
    obtain ⟨hnd2, hfresh2, hchar2⟩ := ih ins1 outs1 h
    have hkeys : txsInputKeys (t :: rest)
        = inputKeys t.inputs ++ txsInputKeys rest := rfl
    have hdisj : ∀ k ∈ inputKeys t.inputs, k ∉ txsInputKeys rest := by
      intro k hka hkb
      have hf := hfresh2 _ hkb
      have ht : mcontains ins1 k = true := (hchar1 k).mpr (Or.inr hka)
      rw [hf] at ht
      exact absurd ht (by simp)
    refine ⟨?_, ?_, ?_⟩
    · rw [hkeys]
      exact List.nodup_append.mpr ⟨hnd1, hnd2, hdisj⟩
    · intro k hk
      rw [hkeys] at hk
      rcases List.mem_append.mp hk with hka | hkb
      · exact hfresh1 _ hka
      · have hf := hfresh2 _ hkb
        by_cases hik : mcontains ins k = true
        · have : mcontains ins1 k = true := (hchar1 k).mpr (Or.inl hik)
          rw [hf] at this
          exact absurd this (by simp)
        · simp at hik
          exact hik
    · intro k
      rw [hkeys, hchar2 k, hchar1 k, List.mem_append]
      tauto

/-- If the coinbase has inputs, or no outputs, or the fee calculation ends
in `InvalidTransaction`, then the coinbase verification returns
`InvalidTransaction`. -/
theorem verify_coinbase_invalid_cases (hm : HashModel) (reward halving : Nat)
    (b : Block) (ht : Nat) (utxos : UtxoMap) (cb : Transaction)
    (rest : List Transaction) (htx : b.transactions = cb :: rest)
    (hcase : cb.inputs ≠ [] ∨ cb.outputs = []
      ∨ calculate_miner_fees hm b utxos
          = some (.error .InvalidTransaction)) :
    verify_coinbase_transaction hm reward halving b ht utxos
      = some (.error .InvalidTransaction) := by
  simp only [verify_coinbase_transaction, htx, List.head?_cons]
  by_cases hin : cb.inputs.length ≠ 0
  · rw [if_pos hin]
  · rw [if_neg hin]
    by_cases hout : cb.outputs.length = 0
    · rw [if_pos hout]
    · rw [if_neg hout]
      rcases hcase with hc1 | hc2 | hc3
      · have : cb.inputs = [] := List.length_eq_zero.mp (not_ne_iff.mp hin)
        exact absurd this hc1
      · exact absurd (by simp [hc2]) hout
      · rw [hc3]

/-- An error reported by the coinbase verification propagates unchanged
through `verify_transactions` on a non-empty block. -/
theorem verify_transactions_coinbase_error (hm : HashModel)
    (reward halving : Nat) (b : Block) (ht : Nat) (utxos : UtxoMap)
    (e : BtcError) (hne : b.transactions ≠ [])
    (hcb : verify_coinbase_transaction hm reward halving b ht utxos
      = some (.error e)) :
    verify_transactions hm reward halving b ht utxos = some (.error e) := by
  have hie : b.transactions.isEmpty = false := by
    cases hl : b.transactions
    · exact absurd hl hne
    · rfl
  simp only [verify_transactions, hie, Bool.false_eq_true, if_false, hcb]

/-- Claim C7: whenever two inputs within the same block (in one transaction
or in two different ones) reference the same `prev_output_hash`,
`verify_transactions` returns `InvalidTransaction`.  A coinbase with inputs
is rejected outright; any other duplicate lies among the non-coinbase
transactions and makes the fee scan fail before signatures, value checks, or
the subsidy arithmetic are ever consulted. -/
theorem verify_transactions_duplicate_input_rejected (hm : HashModel)
    (reward halving : Nat) (b : Block) (ht : Nat) (utxos : UtxoMap)
    (hdup : ¬ (blockInputKeys b).Nodup) :
    verify_transactions hm reward halving b ht utxos
      = some (.error .InvalidTransaction) := by
  cases htx : b.transactions with
  | nil => exact absurd (by simp [blockInputKeys, txsInputKeys, htx]) hdup
  | cons cb rest =>
    have hne : b.transactions ≠ [] := by rw [htx]; simp
    apply verify_transactions_coinbase_error hm reward halving b ht utxos _ hne
    by_cases hin : cb.inputs = []
    · by_cases hout : cb.outputs = []
      · exact verify_coinbase_invalid_cases hm reward halving b ht utxos cb
          rest htx (Or.inr (Or.inl hout))
      · have hdrop : b.transactions.drop 1 = rest := by
          rw [htx]
          simp
        have hdup2 : ¬ (txsInputKeys rest).Nodup := by
          have hkeys : blockInputKeys b = txsInputKeys rest := by
            simp [blockInputKeys, htx, txsInputKeys, hin, inputKeys]
          rw [hkeys] at hdup
          exact hdup
        cases hfee : feeTxLoop hm utxos rest [] [] with
        | ok pr =>
          obtain ⟨ins2, outs2⟩ := pr
          obtain ⟨hnd, -, -⟩ := feeTxLoop_ok hm utxos rest [] [] ins2 outs2 hfee
          exact absurd hnd hdup2
        | error e2 =>
          have he2 : e2 = .InvalidTransaction :=
            feeTxLoop_error hm utxos rest [] [] e2 hfee
          apply verify_coinbase_invalid_cases hm reward halving b ht utxos cb
            rest htx
          refine Or.inr (Or.inr ?_)
          simp only [calculate_miner_fees, hdrop, hfee, he2]
    · exact verify_coinbase_invalid_cases hm reward halving b ht utxos cb
        rest htx (Or.inl hin)

/-- Concrete transaction consuming the same referenced output twice. -/
def txDup : Transaction :=
  { inputs := [{ prev_transaction_output_hash := 5, signature := 0 },
               { prev_transaction_output_hash := 5, signature := 0 }]
    outputs := [] }

/-- Concrete block with a duplicate input reference. -/
def blkC7w : Block := { header := hdr0, transactions := [cbOne, txDup] }

/-- Witness for `verify_transactions_duplicate_input_rejected` at a
concrete block whose second transaction spends the same hash twice. -/
theorem verify_transactions_duplicate_input_rejected_witness :
    verify_transactions hmW 50 1 blkC7w 0 []
      = some (.error .InvalidTransaction) :=
  verify_transactions_duplicate_input_rejected hmW 50 1 blkC7w 0 []
    (by decide)

/-- Folding the checked additions from an already-panicked accumulator
stays panicked. -/
theorem foldl_addU64_none (l : List Nat) :
    l.foldl (fun acc v => acc.bind (fun s => addU64 s v)) none = none := by
  induction l with
  | nil => rfl
  | cons v rest ih => simpa using ih

/-- Running checked summation from a in-bounds accumulator: the result is
the total when it stays below `2 ^ 64` and a panic otherwise (partial sums
of naturals are monotone, so the first overflow happens exactly when the
total overflows). -/
theorem sumU64_aux (l : List Nat) (s : Nat) (hs : s < 2 ^ 64) :
    l.foldl (fun acc v => acc.bind (fun x => addU64 x v)) (some s)
      = if s + l.sum < 2 ^ 64 then some (s + l.sum) else none := by
  induction l generalizing s with
  | nil => rw [List.foldl_nil, List.sum_nil, Nat.add_zero, if_pos hs]
  | cons v rest ih =>
    rw [List.foldl_cons]
    show List.foldl (fun acc v => acc.bind fun x => addU64 x v)
      (addU64 s v) rest = _
    by_cases hv : s + v < 2 ^ 64
    · rw [show addU64 s v = some (s + v) from by simp [addU64]; omega,
        ih (s + v) hv]
      have hassoc : s + v + rest.sum = s + (v :: rest).sum := by
        simp [Nat.add_assoc]
      rw [hassoc]
    · rw [show addU64 s v = none from by simp [addU64]; omega,
        foldl_addU64_none]
      have hbig : ¬ s + (v :: rest).sum < 2 ^ 64 := by
        simp only [List.sum_cons]
        omega
      rw [if_neg hbig]

/-- The checked sum succeeds with the plain total exactly when the total
fits in `u64`. -/
theorem sumU64_eq (l : List Nat) :
    sumU64 l = if l.sum < 2 ^ 64 then some l.sum else none := by
  have h := sumU64_aux l 0 (by norm_num)
  simpa [sumU64] using h

/-- Every error returned by `calculate_miner_fees` is `InvalidTransaction`. -/
theorem calculate_miner_fees_error (hm : HashModel) (b : Block)
    (utxos : UtxoMap) (e : BtcError)
    (h : calculate_miner_fees hm b utxos = some (.error e)) :
    e = .InvalidTransaction := by
  simp only [calculate_miner_fees] at h
  split at h
  · rename_i e2 hft
    injection h with h1
    injection h1 with h2
    exact h2 ▸ feeTxLoop_error hm utxos (b.transactions.drop 1) [] [] e2 hft
  · split at h
    · simp at h
    · split at h
      · simp at h
      · split at h <;> simp at h

/-- The claim's wording of a valid coinbase (spec §4.4a), as a decidable
predicate on the first transaction, the subsidy, and the fee-calculation
result: zero inputs, at least one output, and a total output value exactly
equal to subsidy plus fees. -/
def coinbase_spec_ok (cb : Transaction) (subsidy : Nat)
    (r : Except BtcError Nat) : Bool :=
  cb.inputs.isEmpty && !cb.outputs.isEmpty &&
    (match r with
     | .ok fees => (cb.outputs.map (fun o => o.value)).sum == subsidy + fees
     | .error _ => false)

/-- Claim C6 (amended): on a block with at least one transaction, for
heights below the overflow threshold (`height / HALVING_INTERVAL < 64`), a
positive halving interval, a reward whose subunit value fits in `u64`, a
fee calculation that returns (rather than panics), and value totals within
`u64` (the coinbase output sum and `block_reward + fees` both below
`2 ^ 64`, so neither the debug-build panic nor the release-build wrap of
`types.rs:208-215` can fire), the coinbase verification succeeds exactly
when the spec predicate `coinbase_spec_ok` holds with subsidy
`floor(reward_sats / 2 ^ (height / HALVING_INTERVAL))`, and returns
`InvalidTransaction` in every other case. -/
theorem verify_coinbase_characterization (hm : HashModel)
    (reward halving : Nat) (b : Block) (ht : Nat) (utxos : UtxoMap)
    (cb : Transaction) (rest : List Transaction) (r : Except BtcError Nat)
    (htx : b.transactions = cb :: rest) (hhal : 0 < halving)
    (hrew : reward * 10 ^ 8 < 2 ^ 64) (hexp : ht / halving < 64)
    (hfee : calculate_miner_fees hm b utxos = some r)
    (hbound : ∀ fees, r = Except.ok fees →
      (cb.outputs.map (fun o => o.value)).sum < 2 ^ 64
        ∧ reward * 10 ^ 8 / 2 ^ (ht / halving) + fees < 2 ^ 64) :
    verify_coinbase_transaction hm reward halving b ht utxos
      = some (if coinbase_spec_ok cb (reward * 10 ^ 8 / 2 ^ (ht / halving)) r
          then Except.ok () else Except.error BtcError.InvalidTransaction) := by
  simp only [verify_coinbase_transaction, htx, List.head?_cons, hfee]
  by_cases hin : cb.inputs = []
  · have hlen : ¬ cb.inputs.length ≠ 0 := by simp [hin]
    rw [if_neg hlen]
    by_cases hout : cb.outputs = []
    · have hol : cb.outputs.length = 0 := by simp [hout]
      rw [if_pos hol]
      simp [coinbase_spec_ok, hout]
    · have hol : ¬ cb.outputs.length = 0 := by simp [hout]
      rw [if_neg hol]
      cases r with
      | error e =>
        have he : e = .InvalidTransaction :=
          calculate_miner_fees_error hm b utxos e hfee
        subst he
        simp [coinbase_spec_ok]
      | ok fees =>
        obtain ⟨hsum, hadd⟩ := hbound fees rfl
        have h1 : ¬ (2 ^ 64 ≤ reward * 10 ^ 8) := not_le.mpr hrew
        have h2 : ¬ halving = 0 := Nat.pos_iff_ne_zero.mp hhal
        have hm32 : (ht / halving) % 2 ^ 32 = ht / halving :=
          Nat.mod_eq_of_lt (lt_trans hexp (by norm_num))
        have h3 : ¬ (64 ≤ (ht / halving) % 2 ^ 32) := by
          rw [hm32]
          exact not_le.mpr hexp
        have hx : ht / halving % 4294967296 = ht / halving :=
          Nat.mod_eq_of_lt (by omega)
        have hrew2 := hrew
        norm_num at hrew2
        have hsumU : sumU64 (cb.outputs.map (fun o => o.value))
            = some ((cb.outputs.map (fun o => o.value)).sum) := by
          rw [sumU64_eq, if_pos hsum]
        have haddU : addU64 (reward * 10 ^ 8 / 2 ^ (ht / halving)) fees
            = some (reward * 10 ^ 8 / 2 ^ (ht / halving) + fees) := by
          unfold addU64
          rw [if_pos hadd]
        norm_num at haddU
        by_cases heq : (cb.outputs.map (fun o => o.value)).sum
            = reward * 10 ^ 8 / 2 ^ (ht / halving) + fees
        · simp [h1, h2, h3, hm32, hx, hrew2, hexp, hsumU, haddU, heq,
            coinbase_spec_ok, hin, hout]
        · simp [h1, h2, h3, hm32, hx, hrew2, hexp, hsumU, haddU, heq,
            coinbase_spec_ok, hin, hout]
          split <;> rfl
  · have hlen : cb.inputs.length ≠ 0 := by simp [hin]
    rw [if_pos hlen]
    have hie : cb.inputs.isEmpty = false := by
      cases hl : cb.inputs
      · exact absurd hl hin
      · rfl
    simp [coinbase_spec_ok, hie]

/-- Concrete coinbase paying exactly the height-0 subsidy of 50 coins. -/
def cbC6 : Transaction :=
  { inputs := []
    outputs := [{ value := 5000000000, unique_id := 0, pubkey := 0 }] }

/-- Concrete single-transaction block around `cbC6`. -/
def blkC6w : Block := { header := hdr0, transactions := [cbC6] }

/-- Witness for `verify_coinbase_characterization` at a concrete block:
reward 50, halving interval 1, height 0, empty snapshot, fee result 0. -/
theorem verify_coinbase_characterization_witness :
    verify_coinbase_transaction hmW 50 1 blkC6w 0 []
      = some (if coinbase_spec_ok cbC6 (50 * 10 ^ 8 / 2 ^ (0 / 1))
          (Except.ok 0) then Except.ok ()
          else Except.error BtcError.InvalidTransaction) :=
  verify_coinbase_characterization hmW 50 1 blkC6w 0 [] cbC6 [] (Except.ok 0)
    rfl (by decide) (by norm_num) (by decide) rfl
    (by
      intro fees hf
      injection hf with hf2
      subst hf2
      exact ⟨by norm_num [cbC6], by norm_num⟩)

/-- Claim C10 (amended): when the coinbase passes the zero-input and
nonempty-output checks, the fee calculation succeeds, the reward fits and
the halving interval is positive, the coinbase verification panics on the
`2u64.pow` overflow exactly when the `u32`-cast exponent
`(height / HALVING_INTERVAL) mod 2 ^ 32` is at least 64. -/
theorem verify_coinbase_pow_overflow_panics (hm : HashModel)
    (reward halving : Nat) (b : Block) (ht : Nat) (utxos : UtxoMap)
    (cb : Transaction) (rest : List Transaction) (f : Nat)
    (htx : b.transactions = cb :: rest) (hin : cb.inputs = [])
    (hout : cb.outputs ≠ [])
    (hfee : calculate_miner_fees hm b utxos = some (.ok f))
    (hrew : reward * 10 ^ 8 < 2 ^ 64) (hhal : 0 < halving)
    (hexp : 64 ≤ (ht / halving) % 2 ^ 32) :
    verify_coinbase_transaction hm reward halving b ht utxos = none := by
  simp only [verify_coinbase_transaction, htx, List.head?_cons, hfee]
  have hlen : ¬ cb.inputs.length ≠ 0 := by simp [hin]
  rw [if_neg hlen]
  have hol : ¬ cb.outputs.length = 0 := by simp [hout]
  rw [if_neg hol]
  have h1 : ¬ (2 ^ 64 ≤ reward * 10 ^ 8) := not_le.mpr hrew
  have h2 : ¬ halving = 0 := Nat.pos_iff_ne_zero.mp hhal
  have hexp2 := hexp
  norm_num at hexp2
  simp [h1, h2, hexp]
  intro ha hb
  exact absurd hb (by omega)

/-- Witness for `verify_coinbase_pow_overflow_panics` at a concrete block:
with halving interval 1 and height 64 the exponent overflows `2u64.pow`. -/
theorem verify_coinbase_pow_overflow_panics_witness :
    verify_coinbase_transaction hmW 50 1 blkC6w 64 [] = none :=
  verify_coinbase_pow_overflow_panics hmW 50 1 blkC6w 64 [] cbC6 [] 0
    rfl rfl (by decide) rfl (by norm_num) (by decide) (by norm_num)

/-- Claim C9: every terminating call of `add_block` (successful or failed)
leaves the `utxos` index of the resulting ledger exactly equal to the
original; within the embedded operations only `rebuild_utxos` writes to the
index. -/
theorem add_block_preserves_utxos (hm : HashModel) (s : Blockchain)
    (b : Block) (s2 : Blockchain) (r : Except BtcError Unit)
    (h : add_block hm s b = some (s2, r)) : s2.utxos = s.utxos := by
  simp only [add_block] at h
  split at h
  · split at h
    · injection h with h1
      injection h1 with ha hb
      rw [← ha]
    · exact absurd h (by simp)
  · injection h with h1
    injection h1 with ha hb
    rw [← ha]

/-- Witness for `add_block_preserves_utxos` at a concrete call: appending
`b1W` to the one-block ledger keeps the (empty) index. -/
theorem add_block_preserves_utxos_witness :
    ({ blocks := [b0W, b1W], utxos := [] } : Blockchain).utxos = s1W.utxos :=
  add_block_preserves_utxos hmW s1W b1W _ (Except.ok ()) rfl
